import Mathlib

/-
Verification of the IGS036 decryption core (src/mame/machine/igs036crypt.cpp).

The development shallowly embeds the decryption transform: machine words are
natural numbers, with truncation to 16 bits written as `% 65536` exactly where
the C code converts to `uint16_t`, and the signed intermediate rotation sum is
an `Int`, with the C bit-mask `& 0xf` on a (two's complement) signed value
modelled as `Int.emod` by 16 (both extract the value's residue modulo 16,
non-negative).  The per-title key table is modelled as a function from the low
address byte to the 16-bit key word, mirroring the C array lookup
`key[word_address & 0xff]`.
-/

namespace IGS036

/-- MAME's BIT macro: bit `n` of `x`, as 0 or 1. -/
def BIT (x n : Nat) : Nat := (x >>> n) &&& 1

/-- MAME's BITSWAP16 macro: output bit 15 is bit `b15` of `x`, output bit 14 is
bit `b14` of `x`, ..., output bit 0 is bit `b0` of `x`. -/
def BITSWAP16 (x b15 b14 b13 b12 b11 b10 b9 b8 b7 b6 b5 b4 b3 b2 b1 b0 : Nat) : Nat :=
  BIT x b15 <<< 15 ||| BIT x b14 <<< 14 ||| BIT x b13 <<< 13 ||| BIT x b12 <<< 12 |||
  BIT x b11 <<< 11 ||| BIT x b10 <<< 10 ||| BIT x b9 <<< 9 ||| BIT x b8 <<< 8 |||
  BIT x b7 <<< 7 ||| BIT x b6 <<< 6 ||| BIT x b5 <<< 5 ||| BIT x b4 <<< 4 |||
  BIT x b3 <<< 3 ||| BIT x b2 <<< 2 ||| BIT x b1 <<< 1 ||| BIT x b0

/-- igs036_decryptor::rol: 16-bit left rotation.  `uint16_t r = num << shift`
truncates the shifted value to 16 bits; `uint16_t l = num >> (16 - shift)`
(computed on the promoted value, hence defined even for `shift = 0`). -/
def rol (num shift : Nat) : Nat :=
  let r := (num <<< shift) % 65536
  let l := (num >>> (16 - shift)) % 65536
  r ||| l

/-- helper boolean function (igs036crypt.cpp): an explicitly unverified stub,
always 0. -/
def unknown (_address : Nat) : Nat := 0

/-- helper boolean function: constant 0. -/
def cZero (_address : Nat) : Nat := 0

/-- helper boolean function: constant 1. -/
def cOne (_address : Nat) : Nat := 1

/-- helper boolean function: bit 3 of the address. -/
def bit_3 (address : Nat) : Nat := BIT address 3

/-- helper boolean function: bit 4 of the address. -/
def bit_4 (address : Nat) : Nat := BIT address 4

/-- helper boolean function: bit 7 of the address. -/
def bit_7 (address : Nat) : Nat := BIT address 7

/-- helper boolean function: negation of bit 3. -/
def not_3 (address : Nat) : Nat := BIT address 3 ^^^ 1

/-- helper boolean function: negation of bit 4. -/
def not_4 (address : Nat) : Nat := BIT address 4 ^^^ 1

/-- helper boolean function: negation of bit 7. -/
def not_7 (address : Nat) : Nat := BIT address 7 ^^^ 1

/-- helper boolean function: bit 3 xor bit 7. -/
def xor_37 (address : Nat) : Nat := BIT address 3 ^^^ BIT address 7

/-- helper boolean function: complement of bit 3 xor bit 7. -/
def xnor_37 (address : Nat) : Nat := BIT address 3 ^^^ BIT address 7 ^^^ 1

/-- helper boolean function: bit 4 xor bit 7. -/
def xor_47 (address : Nat) : Nat := BIT address 4 ^^^ BIT address 7

/-- helper boolean function: complement of bit 4 xor bit 7. -/
def xnor_47 (address : Nat) : Nat := BIT address 4 ^^^ BIT address 7 ^^^ 1

/-- helper boolean function: nor of bits 3 and 4. -/
def nor_34 (address : Nat) : Nat := (BIT address 3 ||| BIT address 4) ^^^ 1

/-- helper boolean function: `BIT(address,3) || (BIT(address,4)^1)` — the C
code uses the logical or here (result 0 or 1). -/
def impl_43 (address : Nat) : Nat :=
  if BIT address 3 ≠ 0 ∨ BIT address 4 ^^^ 1 ≠ 0 then 1 else 0

/-- igs036_decryptor::rot_enabling: the 16x4 dispatch table of boolean
functions selecting, per high-address bit position and 2-bit selector, the
rotation-enable function. -/
def rot_enabling : List (List (Nat → Nat)) := [
  [bit_3  , not_3  , bit_3  , not_3  ],
  [bit_3  , not_3  , bit_3  , not_3  ],
  [bit_4  , bit_4  , bit_4  , bit_4  ],
  [bit_4  , not_4  , bit_4  , not_4  ],
  [bit_3  , bit_3  , bit_3  , bit_3  ],
  [nor_34 , bit_7  , bit_7  , cZero  ],
  [cZero  , cOne   , cZero  , cOne   ],
  [impl_43, xor_37 , xnor_37, not_3  ],
  [bit_3  , bit_3  , not_3  , not_3  ],
  [bit_4  , bit_4  , not_4  , not_4  ],
  [cZero  , cZero  , cZero  , cZero  ],
  [nor_34 , bit_7  , not_7  , cOne   ],
  [bit_3  , not_3  , bit_3  , not_3  ],
  [cZero  , cOne   , cOne   , cZero  ],
  [unknown, unknown, unknown, unknown],
  [unknown, unknown, unknown, unknown]]

/-- igs036_decryptor::rot_direction: the 4x8 dispatch table of boolean
functions selecting, per rotation group and 3-bit selector, the rotation
direction function. -/
def rot_direction : List (List (Nat → Nat)) := [
  [bit_3  , xor_37 , xnor_37, not_3  , bit_3  , xor_37 , xnor_37, not_3  ],
  [cZero  , not_7  , not_7  , cZero  , cZero  , not_7  , not_7  , cZero  ],
  [bit_4  , xor_47 , xnor_47, not_4  , bit_4  , xor_47 , xnor_47, not_4  ],
  [bit_3  , not_7  , bit_7  , cZero  , cOne   , not_7  , bit_7  , cZero  ]]

/-- igs036_decryptor::rot_enabled: scan the group's four high-address bit
positions; on the first set bit, dispatch through `rot_enabling` (applied to
the address conditionally xored with 0x1b); if none is set, return 0. -/
def rot_enabled (address : Nat) : List Nat → Nat
  | [] => 0
  | g :: gs =>
    if BIT address (8 + g) = 1 then
      let aux := address ^^^ (0x1b * BIT address 2)
      ((rot_enabling.getD g []).getD (aux &&& 3) cZero) aux
    else rot_enabled address gs

/-- igs036_decryptor::rot_group: dispatch through `rot_direction` (row chosen
by the group's first member mod 4, column by the low 3 address bits), mapping
the 0/1 result to a direction -1/+1. -/
def rot_group (address : Nat) (group : List Nat) : Int :=
  let aux := ((rot_direction.getD (group.headD 0 &&& 3) []).getD (address &&& 7) cZero) address
  (aux : Int) * 2 - 1

/-- group of high-address bit positions rotating by 9 (igs036crypt.cpp
`group15`). -/
def group15 : List Nat := [15, 11, 7, 5]

/-- group of high-address bit positions rotating by 1 (igs036crypt.cpp
`group14`). -/
def group14 : List Nat := [14, 9, 3, 2]

/-- group of high-address bit positions rotating by 2 (igs036crypt.cpp
`group13`). -/
def group13 : List Nat := [13, 10, 6, 1]

/-- group of high-address bit positions rotating by 4 (igs036crypt.cpp
`group12`). -/
def group12 : List Nat := [12, 8, 4, 0]

/-- block-independent rotation contribution `rot2` of
igs036_decryptor::rotation, depending only on the lowest 8 address bits. -/
def rot2 (address : Nat) : Int :=
  let t0 : Int := 4 * BIT address 0
  let t1 : Int := t0 + 1 * BIT address 4 * ((BIT address 0 : Int) * 2 - 1)
  let t2 : Int := t1 + 4 * BIT address 3 * ((BIT address 0 : Int) * 2 - 1)
  let t3 : Int := t2 * (((BIT address 7 ||| (BIT address 0 ^^^ BIT address 1 ^^^ 1)) : Int) * 2 - 1)
  t3 + 2 * ((BIT address 0 ^^^ BIT address 1) &&& (BIT address 7 ^^^ 1) : Nat)

/-- igs036_decryptor::rotation: the 0..15 rotation amount for a word address.
The C `& 0xf` on the possibly negative signed sum is modelled as the
non-negative residue modulo 16. -/
def rotation (address : Nat) : Nat :=
  let enabled0 := rot_enabled address group15
  let rotA : Int := (enabled0 : Int) * rot_group address group15 * 9
  let enabled1 := enabled0 ^^^ rot_enabled address group14
  let rotB : Int := rotA + (enabled1 : Int) * rot_group address group14 * 1
  let enabled2 := enabled0 ^^^ rot_enabled address group13
  let rotC : Int := rotB + (enabled2 : Int) * rot_group address group13 * 2
  let enabled3 := enabled0 ^^^ rot_enabled address group12
  let rotD : Int := rotC + (enabled3 : Int) * rot_group address group12 * 4
  ((rotD + rot2 address) % 16).toNat

/-- igs036_decryptor::deobfuscate: rotate left by the computed shift, then
apply the fixed bit permutation. -/
def deobfuscate (cipherword word_address : Nat) : Nat :=
  let shift := rotation word_address
  let aux := rol cipherword shift
  BITSWAP16 aux 10 9 8 7 0 15 6 5 14 13 4 3 12 11 2 1

/-- igs036_decryptor::triggers: the 16 (mask, match) pairs gating the 16
one-bit XORs on the high address bits. -/
def triggers : List (Nat × Nat) := [
  (0x0001, 0x0000), (0x0008, 0x0008), (0x0002, 0x0000), (0x0004, 0x0004),
  (0x0100, 0x0000), (0x0200, 0x0000), (0x0400, 0x0000), (0x0800, 0x0800),
  (0x1001, 0x0001), (0x2002, 0x2000), (0x4004, 0x4000), (0x8008, 0x0000),
  (0x0010, 0x0010), (0x0020, 0x0020), (0x0040, 0x0000), (0x0081, 0x0081)]

/-- igs036_decryptor::decrypt: deobfuscate, then for each bit position apply
the key/trigger gated one-bit XOR, then xor the constant 0x1a3a. -/
def decrypt (key : Nat → Nat) (cipherword word_address : Nat) : Nat :=
  let aux := (List.range 16).foldl
    (fun aux i =>
      if BIT (key (word_address &&& 0xff)) i = 1 then
        if (word_address >>> 8) &&& (triggers.getD i (0, 0)).1 = (triggers.getD i (0, 0)).2 then
          aux ^^^ (1 <<< i)
        else aux
      else aux)
    (deobfuscate cipherword word_address)
  aux ^^^ 0x1a3a

/-- igs036_decryptor::decrypter_rom: in-place decryption of a region of
`size` bytes, modelled on a list of 16-bit words: for each word index
`i < size / 2` in increasing order, replace word `i` by its decryption. -/
def decrypter_rom (key : Nat → Nat) (size : Nat) (rom : List Nat) : List Nat :=
  (List.range (size / 2)).foldl (fun r i => r.set i (decrypt key (r.getD i 0) i)) rom

/-- Modelled from the spec (section 4.3), for comparison with `decrypt`:
`apply_key_xor(value, address)` toggles bit `i` of `value` exactly when bit
`i` of `key[address & 0xFF]` is set and the trigger for bit `i` matches the
high address bits. -/
def apply_key_xor (key : Nat → Nat) (value word_address : Nat) : Nat :=
  (List.range 16).foldl
    (fun v i =>
      if BIT (key (word_address &&& 0xff)) i = 1 ∧
          (word_address >>> 8) &&& (triggers.getD i (0, 0)).1 = (triggers.getD i (0, 0)).2 then
        v ^^^ (1 <<< i)
      else v)
    value

/-- Modelled from the spec (section 8), for comparison with `deobfuscate` and
`rot2`: the claimed closed form of the block contribution in terms of address
bits 0, 1, 3, 4 and 7 (negation of a single bit written as xor with 1). -/
def rot2_spec (address : Nat) : Int :=
  let b0 := BIT address 0
  let b1 := BIT address 1
  let b3 := BIT address 3
  let b4 := BIT address 4
  let b7 := BIT address 7
  let t0 : Int := 4 * b0
  let t1 : Int := t0 + b4 * ((b0 : Int) * 2 - 1)
  let t2 : Int := t1 + 4 * b3 * ((b0 : Int) * 2 - 1)
  let t3 : Int := t2 * (2 * ((b7 ||| (b0 ^^^ b1 ^^^ 1)) : Int) - 1)
  t3 + 2 * ((b0 ^^^ b1) &&& (b7 ^^^ 1) : Nat)

/-- the fixed bit permutation used by `deobfuscate`, as a standalone map on
16-bit words. -/
def perm16 (x : Nat) : Nat := BITSWAP16 x 10 9 8 7 0 15 6 5 14 13 4 3 12 11 2 1

/-- Modelled from the spec (section 8): the inverse of the fixed bit
permutation of `deobfuscate` (output bit `k` is sourced from the input bit
that `perm16` sends bit `k` to). -/
def perm16_inv (x : Nat) : Nat := BITSWAP16 x 10 7 6 3 2 15 14 13 12 9 8 5 4 1 0 11

/-- Modelled from the spec (section 8): 16-bit right rotation, the inverse of
`rol` at the same shift. -/
def ror (num shift : Nat) : Nat :=
  (num >>> shift) % 65536 ||| (num <<< (16 - shift)) % 65536

/-- Modelled from the spec (section 8): `obfuscate_inverse` applies the
inverse permutation, then the inverse rotation for the address. -/
def obfuscate_inverse (w word_address : Nat) : Nat :=
  ror (perm16_inv w) (rotation word_address)

/-- source bit position feeding output bit `j` of `perm16` (reading the
BITSWAP16 argument list from the low end). -/
def perm16_src (j : Nat) : Nat :=
  [1, 2, 11, 12, 3, 4, 13, 14, 5, 6, 15, 0, 7, 8, 9, 10].getD j 0

/-- source bit position feeding output bit `j` of `perm16_inv`. -/
def perm16_inv_src (j : Nat) : Nat :=
  [11, 0, 1, 4, 5, 8, 9, 12, 13, 14, 15, 2, 3, 6, 7, 10].getD j 0

/-- a boolean helper function only reads address bits 3, 4 and 7 when it
agrees on any two addresses whose bits 3, 4 and 7 agree. -/
def Congr347 (f : Nat → Nat) : Prop :=
  ∀ x y : Nat, BIT x 3 = BIT y 3 → BIT x 4 = BIT y 4 → BIT x 7 = BIT y 7 → f x = f y

end IGS036

namespace IGS036

theorem BIT_le (x n : Nat) : BIT x n ≤ 1 :=
  Nat.and_le_right

theorem BIT_eq_mod (x n : Nat) : BIT x n = x / 2 ^ n % 2 := by
  rw [BIT, Nat.and_one_is_mod, Nat.shiftRight_eq_div_pow]

theorem BIT_eq_testBit (x n : Nat) : BIT x n = (x.testBit n).toNat := by
  rw [BIT_eq_mod, Nat.testBit_to_div_mod]
  rcases Nat.mod_two_eq_zero_or_one (x / 2 ^ n) with h | h <;> simp [h]

theorem BIT_zero_or_one (x n : Nat) : BIT x n = 0 ∨ BIT x n = 1 := by
  have := BIT_le x n; omega

theorem toNat_emod_sixteen_le (x : Int) : (x % 16).toNat ≤ 15 := by
  have h1 := Int.emod_nonneg x (show (16 : Int) ≠ 0 by norm_num)
  have h2 := Int.emod_lt_of_pos x (show (0 : Int) < 16 by norm_num)
  omega

theorem rotation_le (address : Nat) : rotation address ≤ 15 :=
  toNat_emod_sixteen_le _

theorem foldl_const {a : Type} {b : Type} (l : List b) (x : a) :
    l.foldl (fun acc _ => acc) x = x := by
  induction l generalizing x with
  | nil => rfl
  | cons y t ih => rw [List.foldl_cons]; exact ih x

theorem or_lt_65536 {x y : Nat} (hx : x < 65536) (hy : y < 65536) : x ||| y < 65536 :=
  Nat.or_lt_two_pow (n := 16) hx hy

theorem xor_lt_65536 {x y : Nat} (hx : x < 65536) (hy : y < 65536) : x ^^^ y < 65536 :=
  Nat.xor_lt_two_pow (n := 16) hx hy

theorem BIT_shiftLeft_lt (x b k : Nat) (hk : k ≤ 15) : BIT x b <<< k < 65536 := by
  rw [Nat.shiftLeft_eq]
  have h1 := BIT_le x b
  have h2 : (2 : Nat) ^ k ≤ 2 ^ 15 := Nat.pow_le_pow_right (by norm_num) hk
  have h3 : BIT x b * 2 ^ k ≤ 1 * 2 ^ k := Nat.mul_le_mul_right _ h1
  have h4 : (2 : Nat) ^ 15 = 32768 := by norm_num
  omega

theorem BITSWAP16_lt (x b15 b14 b13 b12 b11 b10 b9 b8 b7 b6 b5 b4 b3 b2 b1 b0 : Nat) :
    BITSWAP16 x b15 b14 b13 b12 b11 b10 b9 b8 b7 b6 b5 b4 b3 b2 b1 b0 < 65536 := by
  unfold BITSWAP16
  repeat' apply or_lt_65536
  all_goals
    first
      | exact BIT_shiftLeft_lt x _ _ (by norm_num)
      | exact lt_of_le_of_lt (BIT_le x _) (by norm_num)

theorem deobfuscate_lt (c a : Nat) : deobfuscate c a < 65536 := by
  unfold deobfuscate
  exact BITSWAP16_lt _ 10 9 8 7 0 15 6 5 14 13 4 3 12 11 2 1

theorem decrypt_lt (key : Nat → Nat) (c a : Nat) : decrypt key c a < 65536 := by
  unfold decrypt
  apply xor_lt_65536 ?_ (by norm_num)
  have step : ∀ (l : List Nat), (∀ i ∈ l, i < 16) → ∀ aux, aux < 65536 →
      List.foldl (fun aux i =>
        if BIT (key (a &&& 0xff)) i = 1 then
          if (a >>> 8) &&& (triggers.getD i (0, 0)).1 = (triggers.getD i (0, 0)).2 then
            aux ^^^ (1 <<< i)
          else aux
        else aux) aux l < 65536 := by
    intro l
    induction l with
    | nil => intro _ aux h; simp only [List.foldl_nil]; exact h
    | cons j t ih =>
      intro hl aux h
      rw [List.foldl_cons]
      refine ih (fun i hi => hl i (List.mem_cons_of_mem _ hi)) _ ?_
      have hj : j < 16 := hl j (List.mem_cons_self _ _)
      split
      · split
        · refine xor_lt_65536 h ?_
          rw [Nat.shiftLeft_eq, one_mul]
          calc (2 : Nat) ^ j ≤ 2 ^ 15 := Nat.pow_le_pow_right (by norm_num) (by omega)
            _ < 65536 := by norm_num
        · exact h
      · exact h
  exact step (List.range 16) (fun i hi => List.mem_range.mp hi) _ (deobfuscate_lt c a)

theorem rol_zero (num : Nat) (h : num < 65536) : rol num 0 = num := by
  simp [rol, Nat.mod_eq_of_lt h, Nat.shiftRight_eq_div_pow, Nat.div_eq_of_lt h]

theorem decrypt_unfold (key : Nat → Nat) (c a : Nat) :
    decrypt key c a =
      List.foldl (fun aux i =>
        if BIT (key (a &&& 0xff)) i = 1 then
          if (a >>> 8) &&& (triggers.getD i (0, 0)).1 = (triggers.getD i (0, 0)).2 then
            aux ^^^ (1 <<< i)
          else aux
        else aux) (deobfuscate c a) (List.range 16) ^^^ 0x1a3a := rfl

theorem decrypt_eq_key_xor (key : Nat → Nat) (c a : Nat) :
    decrypt key c a = apply_key_xor key (deobfuscate c a) a ^^^ 0x1a3a := by
  rw [decrypt_unfold]
  unfold apply_key_xor
  congr 1
  apply List.foldl_ext
  intro v i _
  by_cases h1 : BIT (key (a &&& 0xff)) i = 1 <;>
    by_cases h2 : (a >>> 8) &&& (triggers.getD i (0, 0)).1 = (triggers.getD i (0, 0)).2 <;>
    simp [h1, h2]

theorem decrypt_zero_key (key : Nat → Nat) (c a : Nat) (hk : key (a &&& 0xff) = 0) :
    decrypt key c a = deobfuscate c a ^^^ 0x1a3a := by
  rw [decrypt_unfold]
  congr 1
  simp only [hk, BIT, Nat.zero_shiftRight, Nat.zero_and]
  simp only [show (0 : Nat) = 1 ↔ False by norm_num, if_false]
  exact foldl_const _ _

theorem rot2_eq_spec (a : Nat) : rot2 a = rot2_spec a := by
  simp only [rot2, rot2_spec]
  ring

theorem rot2_congr (a b : Nat) (h0 : BIT a 0 = BIT b 0) (h1 : BIT a 1 = BIT b 1)
    (h3 : BIT a 3 = BIT b 3) (h4 : BIT a 4 = BIT b 4) (h7 : BIT a 7 = BIT b 7) :
    rot2 a = rot2 b := by
  simp only [rot2, h0, h1, h3, h4, h7]

theorem rol_eq_of_lt (num shift : Nat) (hn : num < 65536) (hs : shift ≤ 16) :
    rol num shift = num % 2 ^ (16 - shift) * 2 ^ shift + num / 2 ^ (16 - shift) := by
  have hks : (2 : Nat) ^ (16 - shift) * 2 ^ shift = 65536 := by
    rw [← pow_add]
    have : 16 - shift + shift = 16 := by omega
    rw [this]
    norm_num
  have hr : (num <<< shift) % 65536 = num % 2 ^ (16 - shift) * 2 ^ shift := by
    rw [Nat.shiftLeft_eq, ← hks, Nat.mul_mod_mul_right]
  have hdivlt : num / 2 ^ (16 - shift) < 2 ^ shift := by
    rw [Nat.div_lt_iff_lt_mul (Nat.pos_pow_of_pos _ (by norm_num))]
    calc num < 65536 := hn
      _ = 2 ^ shift * 2 ^ (16 - shift) := by rw [Nat.mul_comm] at hks; omega
  have hl : (num >>> (16 - shift)) % 65536 = num / 2 ^ (16 - shift) := by
    rw [Nat.shiftRight_eq_div_pow]
    exact Nat.mod_eq_of_lt (lt_of_le_of_lt (Nat.div_le_self _ _) hn)
  show (num <<< shift) % 65536 ||| (num >>> (16 - shift)) % 65536 = _
  rw [hr, hl, Nat.mul_comm (num % 2 ^ (16 - shift)) (2 ^ shift),
    ← Nat.mul_add_lt_is_or hdivlt, Nat.mul_comm]

theorem ror_eq_of_lt (num shift : Nat) (hn : num < 65536) (hs : shift ≤ 16) :
    ror num shift = num % 2 ^ shift * 2 ^ (16 - shift) + num / 2 ^ shift := by
  have hks : (2 : Nat) ^ shift * 2 ^ (16 - shift) = 65536 := by
    rw [← pow_add]
    have : shift + (16 - shift) = 16 := by omega
    rw [this]
    norm_num
  have hr : (num <<< (16 - shift)) % 65536 = num % 2 ^ shift * 2 ^ (16 - shift) := by
    rw [Nat.shiftLeft_eq, ← hks, Nat.mul_mod_mul_right]
  have hdivlt : num / 2 ^ shift < 2 ^ (16 - shift) := by
    rw [Nat.div_lt_iff_lt_mul (Nat.pos_pow_of_pos _ (by norm_num))]
    calc num < 65536 := hn
      _ = 2 ^ (16 - shift) * 2 ^ shift := by rw [Nat.mul_comm] at hks; omega
  have hl : (num >>> shift) % 65536 = num / 2 ^ shift := by
    rw [Nat.shiftRight_eq_div_pow]
    exact Nat.mod_eq_of_lt (lt_of_le_of_lt (Nat.div_le_self _ _) hn)
  show (num >>> shift) % 65536 ||| (num <<< (16 - shift)) % 65536 = _
  rw [hr, hl, Nat.lor_comm, Nat.mul_comm (num % 2 ^ shift) (2 ^ (16 - shift)),
    ← Nat.mul_add_lt_is_or hdivlt, Nat.mul_comm]

theorem rol_lt (num shift : Nat) : rol num shift < 65536 := by
  unfold rol
  exact or_lt_65536 (Nat.mod_lt _ (by norm_num)) (Nat.mod_lt _ (by norm_num))

theorem ror_lt (num shift : Nat) : ror num shift < 65536 := by
  unfold ror
  exact or_lt_65536 (Nat.mod_lt _ (by norm_num)) (Nat.mod_lt _ (by norm_num))

theorem ror_rol (num shift : Nat) (hn : num < 65536) (hs : shift ≤ 16) :
    ror (rol num shift) shift = num := by
  rw [rol_eq_of_lt num shift hn hs, ror_eq_of_lt _ shift ?hlt hs]
  case hlt =>
    rw [← rol_eq_of_lt num shift hn hs]
    exact rol_lt num shift
  have hb : num / 2 ^ (16 - shift) < 2 ^ shift := by
    rw [Nat.div_lt_iff_lt_mul (Nat.pos_pow_of_pos _ (by norm_num))]
    calc num < 65536 := hn
      _ = 2 ^ shift * 2 ^ (16 - shift) := by
        rw [← pow_add]
        have : shift + (16 - shift) = 16 := by omega
        rw [this]
        norm_num
  rw [Nat.mul_comm (num % 2 ^ (16 - shift)) (2 ^ shift), Nat.mul_add_mod,
    Nat.mod_eq_of_lt hb, Nat.mul_add_div (Nat.pos_pow_of_pos _ (by norm_num)),
    Nat.div_eq_of_lt hb, Nat.add_zero, Nat.mul_comm (num / 2 ^ (16 - shift)) (2 ^ (16 - shift))]
  exact Nat.div_add_mod num (2 ^ (16 - shift))

theorem rol_ror (num shift : Nat) (hn : num < 65536) (hs : shift ≤ 16) :
    rol (ror num shift) shift = num := by
  rw [ror_eq_of_lt num shift hn hs, rol_eq_of_lt _ shift ?hlt hs]
  case hlt =>
    rw [← ror_eq_of_lt num shift hn hs]
    exact ror_lt num shift
  have hb : num / 2 ^ shift < 2 ^ (16 - shift) := by
    rw [Nat.div_lt_iff_lt_mul (Nat.pos_pow_of_pos _ (by norm_num))]
    calc num < 65536 := hn
      _ = 2 ^ (16 - shift) * 2 ^ shift := by
        rw [← pow_add]
        have : 16 - shift + shift = 16 := by omega
        rw [this]
        norm_num
  rw [Nat.mul_comm (num % 2 ^ shift) (2 ^ (16 - shift)), Nat.mul_add_mod,
    Nat.mod_eq_of_lt hb, Nat.mul_add_div (Nat.pos_pow_of_pos _ (by norm_num)),
    Nat.div_eq_of_lt hb, Nat.add_zero, Nat.mul_comm (num / 2 ^ shift) (2 ^ shift)]
  exact Nat.div_add_mod num (2 ^ shift)

theorem decide_toNat_mod_two (b : Bool) : decide (b.toNat % 2 = 1) = b := by
  cases b <;> simp

theorem perm16_testBit (x j : Nat) (hj : j < 16) :
    (perm16 x).testBit j = x.testBit (perm16_src j) := by
  interval_cases j <;>
    simp +decide [perm16, BITSWAP16, BIT_eq_testBit, Nat.testBit_bool_to_nat,
      decide_toNat_mod_two, perm16_src]

theorem perm16_inv_testBit (x j : Nat) (hj : j < 16) :
    (perm16_inv x).testBit j = x.testBit (perm16_inv_src j) := by
  interval_cases j <;>
    simp +decide [perm16_inv, BITSWAP16, BIT_eq_testBit, Nat.testBit_bool_to_nat,
      decide_toNat_mod_two, perm16_inv_src]

theorem perm16_lt (x : Nat) : perm16 x < 65536 :=
  BITSWAP16_lt x 10 9 8 7 0 15 6 5 14 13 4 3 12 11 2 1

theorem perm16_inv_lt (x : Nat) : perm16_inv x < 65536 :=
  BITSWAP16_lt x 10 7 6 3 2 15 14 13 12 9 8 5 4 1 0 11

theorem perm16_src_inv_src : ∀ j, j < 16 → perm16_src (perm16_inv_src j) = j := by decide

theorem perm16_inv_src_src : ∀ j, j < 16 → perm16_inv_src (perm16_src j) = j := by decide

theorem perm16_inv_src_lt : ∀ j, j < 16 → perm16_inv_src j < 16 := by decide

theorem perm16_src_lt : ∀ j, j < 16 → perm16_src j < 16 := by decide

theorem testBit_high_of_lt {x i : Nat} (hx : x < 65536) (hi : 16 ≤ i) :
    x.testBit i = false := by
  apply Nat.testBit_lt_two_pow
  calc x < 65536 := hx
    _ = 2 ^ 16 := by norm_num
    _ ≤ 2 ^ i := Nat.pow_le_pow_right (by norm_num) hi

theorem perm16_inv_perm16 (x : Nat) (hx : x < 65536) : perm16_inv (perm16 x) = x := by
  apply Nat.eq_of_testBit_eq
  intro i
  rcases Nat.lt_or_ge i 16 with hi | hi
  · rw [perm16_inv_testBit _ i hi, perm16_testBit _ _ (perm16_inv_src_lt i hi),
      perm16_src_inv_src i hi]
  · rw [testBit_high_of_lt (perm16_inv_lt _) hi, testBit_high_of_lt hx hi]

theorem perm16_perm16_inv (x : Nat) (hx : x < 65536) : perm16 (perm16_inv x) = x := by
  apply Nat.eq_of_testBit_eq
  intro i
  rcases Nat.lt_or_ge i 16 with hi | hi
  · rw [perm16_testBit _ i hi, perm16_inv_testBit _ _ (perm16_src_lt i hi),
      perm16_inv_src_src i hi]
  · rw [testBit_high_of_lt (perm16_lt _) hi, testBit_high_of_lt hx hi]

theorem deobfuscate_eq (c a : Nat) : deobfuscate c a = perm16 (rol c (rotation a)) := rfl

theorem obfuscate_inverse_deobfuscate (a w : Nat) (hw : w < 65536) :
    obfuscate_inverse (deobfuscate w a) a = w := by
  rw [deobfuscate_eq]
  unfold obfuscate_inverse
  rw [perm16_inv_perm16 _ (rol_lt w (rotation a))]
  exact ror_rol w (rotation a) hw (le_trans (rotation_le a) (by norm_num))

theorem deobfuscate_obfuscate_inverse (a w : Nat) (hw : w < 65536) :
    deobfuscate (obfuscate_inverse w a) a = w := by
  rw [deobfuscate_eq]
  unfold obfuscate_inverse
  rw [rol_ror _ (rotation a) (perm16_inv_lt w) (le_trans (rotation_le a) (by norm_num))]
  exact perm16_perm16_inv w hw

theorem congr347_cZero : Congr347 cZero := fun _ _ _ _ _ => rfl

theorem congr347_cOne : Congr347 cOne := fun _ _ _ _ _ => rfl

theorem congr347_unknown : Congr347 unknown := fun _ _ _ _ _ => rfl

theorem congr347_bit_3 : Congr347 bit_3 := fun x y h3 _ _ => by simp [bit_3, h3]

theorem congr347_bit_4 : Congr347 bit_4 := fun x y _ h4 _ => by simp [bit_4, h4]

theorem congr347_bit_7 : Congr347 bit_7 := fun x y _ _ h7 => by simp [bit_7, h7]

theorem congr347_not_3 : Congr347 not_3 := fun x y h3 _ _ => by simp [not_3, h3]

theorem congr347_not_4 : Congr347 not_4 := fun x y _ h4 _ => by simp [not_4, h4]

theorem congr347_not_7 : Congr347 not_7 := fun x y _ _ h7 => by simp [not_7, h7]

theorem congr347_xor_37 : Congr347 xor_37 := fun x y h3 _ h7 => by simp [xor_37, h3, h7]

theorem congr347_xnor_37 : Congr347 xnor_37 := fun x y h3 _ h7 => by simp [xnor_37, h3, h7]

theorem congr347_xor_47 : Congr347 xor_47 := fun x y _ h4 h7 => by simp [xor_47, h4, h7]

theorem congr347_xnor_47 : Congr347 xnor_47 := fun x y _ h4 h7 => by simp [xnor_47, h4, h7]

theorem congr347_nor_34 : Congr347 nor_34 := fun x y h3 h4 _ => by simp [nor_34, h3, h4]

theorem congr347_impl_43 : Congr347 impl_43 := fun x y h3 h4 _ => by simp [impl_43, h3, h4]

theorem congr347_rot_enabling : ∀ row ∈ rot_enabling, ∀ f ∈ row, Congr347 f := by
  intro row hrow f hf
  simp only [rot_enabling] at hrow
  fin_cases hrow <;> fin_cases hf <;>
    first
    | exact congr347_cZero
    | exact congr347_cOne
    | exact congr347_unknown
    | exact congr347_bit_3
    | exact congr347_bit_4
    | exact congr347_bit_7
    | exact congr347_not_3
    | exact congr347_not_4
    | exact congr347_not_7
    | exact congr347_xor_37
    | exact congr347_xnor_37
    | exact congr347_xor_47
    | exact congr347_xnor_47
    | exact congr347_nor_34
    | exact congr347_impl_43

theorem congr347_rot_direction : ∀ row ∈ rot_direction, ∀ f ∈ row, Congr347 f := by
  intro row hrow f hf
  simp only [rot_direction] at hrow
  fin_cases hrow <;> fin_cases hf <;>
    first
    | exact congr347_cZero
    | exact congr347_cOne
    | exact congr347_bit_3
    | exact congr347_bit_4
    | exact congr347_bit_7
    | exact congr347_not_3
    | exact congr347_not_4
    | exact congr347_not_7
    | exact congr347_xor_37
    | exact congr347_xnor_37
    | exact congr347_xor_47
    | exact congr347_xnor_47

theorem congr347_getD (t : List (List (Nat → Nat)))
    (ht : ∀ row ∈ t, ∀ f ∈ row, Congr347 f) (g s : Nat) :
    Congr347 ((t.getD g []).getD s cZero) := by
  rcases Nat.lt_or_ge g t.length with hg | hg
  · have hrow : t.getD g [] ∈ t := by
      rw [List.getD_eq_getElem?_getD, List.getElem?_eq_getElem hg, Option.getD_some]
      exact List.getElem_mem hg
    set row := t.getD g [] with hrowdef
    rcases Nat.lt_or_ge s row.length with hs | hs
    · have hmem : row.getD s cZero ∈ row := by
        rw [List.getD_eq_getElem?_getD, List.getElem?_eq_getElem hs, Option.getD_some]
        exact List.getElem_mem hs
      exact ht _ hrow _ hmem
    · rw [List.getD_eq_getElem?_getD, List.getElem?_eq_none hs, Option.getD_none]
      exact congr347_cZero
  · rw [List.getD_eq_getElem?_getD (l := t), List.getElem?_eq_none hg, Option.getD_none,
      List.getD_nil]
    exact congr347_cZero

theorem and_mask_congr (x y k : Nat) (h : ∀ i, i < k → x.testBit i = y.testBit i) :
    x &&& (2 ^ k - 1) = y &&& (2 ^ k - 1) := by
  apply Nat.eq_of_testBit_eq
  intro i
  simp only [Nat.testBit_and, Nat.testBit_two_pow_sub_one]
  by_cases hik : i < k
  · rw [h i hik]
  · simp [hik]

theorem BIT_congr (a b : Nat) (h : ∀ i, i ≠ 5 → i ≠ 6 → a.testBit i = b.testBit i)
    (n : Nat) (h5 : n ≠ 5) (h6 : n ≠ 6) : BIT a n = BIT b n := by
  rw [BIT_eq_testBit, BIT_eq_testBit, h n h5 h6]

theorem rot_enabled_congr (a b : Nat)
    (h : ∀ i, i ≠ 5 → i ≠ 6 → a.testBit i = b.testBit i) :
    ∀ group : List Nat, rot_enabled a group = rot_enabled b group := by
  have h2 : BIT a 2 = BIT b 2 := BIT_congr a b h 2 (by omega) (by omega)
  have haux : ∀ i, i ≠ 5 → i ≠ 6 →
      (a ^^^ 0x1b * BIT a 2).testBit i = (b ^^^ 0x1b * BIT b 2).testBit i := by
    intro i h5 h6
    simp only [Nat.testBit_xor, h2, h i h5 h6]
  have hsel : (a ^^^ 0x1b * BIT a 2) &&& 3 = (b ^^^ 0x1b * BIT b 2) &&& 3 := by
    simpa using and_mask_congr _ _ 2 (fun i hi => haux i (by omega) (by omega))
  have hX3 : BIT (a ^^^ 0x1b * BIT a 2) 3 = BIT (b ^^^ 0x1b * BIT b 2) 3 := by
    rw [BIT_eq_testBit (a ^^^ 0x1b * BIT a 2) 3, BIT_eq_testBit (b ^^^ 0x1b * BIT b 2) 3,
      haux 3 (by omega) (by omega)]
  have hX4 : BIT (a ^^^ 0x1b * BIT a 2) 4 = BIT (b ^^^ 0x1b * BIT b 2) 4 := by
    rw [BIT_eq_testBit (a ^^^ 0x1b * BIT a 2) 4, BIT_eq_testBit (b ^^^ 0x1b * BIT b 2) 4,
      haux 4 (by omega) (by omega)]
  have hX7 : BIT (a ^^^ 0x1b * BIT a 2) 7 = BIT (b ^^^ 0x1b * BIT b 2) 7 := by
    rw [BIT_eq_testBit (a ^^^ 0x1b * BIT a 2) 7, BIT_eq_testBit (b ^^^ 0x1b * BIT b 2) 7,
      haux 7 (by omega) (by omega)]
  intro group
  induction group with
  | nil => rfl
  | cons g gs ih =>
    simp only [rot_enabled]
    rw [BIT_congr a b h (8 + g) (by omega) (by omega), hsel]
    split
    · exact congr347_getD rot_enabling congr347_rot_enabling g _ _ _ hX3 hX4 hX7
    · exact ih

theorem rot_group_congr (a b : Nat)
    (h : ∀ i, i ≠ 5 → i ≠ 6 → a.testBit i = b.testBit i) (group : List Nat) :
    rot_group a group = rot_group b group := by
  unfold rot_group
  have hsel7 : a &&& 7 = b &&& 7 := by
    simpa using and_mask_congr a b 3 (fun i hi => h i (by omega) (by omega))
  rw [hsel7, congr347_getD rot_direction congr347_rot_direction (group.headD 0 &&& 3)
    (b &&& 7) a b (BIT_congr a b h 3 (by omega) (by omega))
    (BIT_congr a b h 4 (by omega) (by omega)) (BIT_congr a b h 7 (by omega) (by omega))]

theorem rotation_congr (a b : Nat)
    (h : ∀ i, i ≠ 5 → i ≠ 6 → a.testBit i = b.testBit i) :
    rotation a = rotation b := by
  have hb : ∀ n, n ≠ 5 → n ≠ 6 → BIT a n = BIT b n := BIT_congr a b h
  simp only [rotation]
  rw [rot_enabled_congr a b h group15, rot_enabled_congr a b h group14,
    rot_enabled_congr a b h group13, rot_enabled_congr a b h group12,
    rot_group_congr a b h group15, rot_group_congr a b h group14,
    rot_group_congr a b h group13, rot_group_congr a b h group12,
    rot2_congr a b (hb 0 (by omega) (by omega)) (hb 1 (by omega) (by omega))
      (hb 3 (by omega) (by omega)) (hb 4 (by omega) (by omega))
      (hb 7 (by omega) (by omega))]

theorem deobfuscate_congr (a b : Nat)
    (h : ∀ i, i ≠ 5 → i ≠ 6 → a.testBit i = b.testBit i) (c : Nat) :
    deobfuscate c a = deobfuscate c b := by
  rw [deobfuscate_eq, deobfuscate_eq, rotation_congr a b h]

theorem decrypter_rom_eq_mapIdx (key : Nat → Nat) (size : Nat) (rom : List Nat) :
    decrypter_rom key size rom =
      rom.mapIdx (fun i w => if i < size / 2 then decrypt key w i else w) := by
  suffices H : ∀ (n : Nat) (rom : List Nat),
      (List.range n).foldl (fun r i => r.set i (decrypt key (r.getD i 0) i)) rom =
        rom.mapIdx (fun i w => if i < n then decrypt key w i else w) from H (size / 2) rom
  intro n
  induction n with
  | zero =>
    intro rom
    simp only [List.range_zero, List.foldl_nil]
    apply List.ext_getElem (by simp)
    intro i h1 h2
    simp
  | succ n ih =>
    intro rom
    rw [List.range_succ, List.foldl_append, ih rom, List.foldl_cons, List.foldl_nil]
    apply List.ext_getElem (by simp)
    intro j hj1 hj2
    have hjlen : j < rom.length := by simpa using hj1
    rw [List.getElem_set]
    split
    · rename_i heq
      subst heq
      rw [List.getElem_mapIdx, if_pos (by omega)]
      congr 1
      rw [List.getD_eq_getElem?_getD, List.getElem?_eq_getElem (by simpa using hjlen),
        Option.getD_some, List.getElem_mapIdx, if_neg (by omega)]
    · rename_i hne
      rw [List.getElem_mapIdx, List.getElem_mapIdx]
      by_cases hjn : j < n
      · rw [if_pos hjn, if_pos (by omega)]
      · rw [if_neg hjn, if_neg (by omega)]

theorem decrypter_rom_length (key : Nat → Nat) (size : Nat) (rom : List Nat) :
    (decrypter_rom key size rom).length = rom.length := by
  rw [decrypter_rom_eq_mapIdx]
  simp

theorem decrypter_rom_frame (key : Nat → Nat) (size : Nat) (rom : List Nat) (j : Nat)
    (hj : size / 2 ≤ j) : (decrypter_rom key size rom).getD j 0 = rom.getD j 0 := by
  rw [decrypter_rom_eq_mapIdx]
  rcases Nat.lt_or_ge j rom.length with hlt | hge
  · rw [List.getD_eq_getElem?_getD, List.getElem?_eq_getElem (by simpa using hlt),
      Option.getD_some, List.getElem_mapIdx, if_neg (by omega),
      List.getD_eq_getElem?_getD, List.getElem?_eq_getElem hlt, Option.getD_some]
  · rw [List.getD_eq_getElem?_getD, List.getElem?_eq_none (by simpa using hge),
      Option.getD_none, List.getD_eq_getElem?_getD, List.getElem?_eq_none hge,
      Option.getD_none]

theorem decrypter_rom_odd (key : Nat → Nat) (n : Nat) (rom : List Nat) :
    decrypter_rom key (2 * n + 1) rom = decrypter_rom key (2 * n) rom := by
  rw [decrypter_rom_eq_mapIdx, decrypter_rom_eq_mapIdx]
  have h1 : (2 * n + 1) / 2 = n := by omega
  have h2 : 2 * n / 2 = n := by omega
  rw [h1, h2]

/-- C1: for every 16-bit cipher word, every 24-bit word address and every key
table, `decrypt` equals `deobfuscate`, followed by the key/trigger gated
per-bit toggles of `apply_key_xor`, followed by the unconditional,
key-independent XOR with the constant 0x1a3a. -/
theorem claim_C1_decrypt_structure (key : Nat → Nat) (c a : Nat)
    (hc : c < 65536) (ha : a < 16777216) :
    decrypt key c a = apply_key_xor key (deobfuscate c a) a ^^^ 0x1a3a :=
  decrypt_eq_key_xor key c a

/-- C1 witness: the structural identity at a concrete word, address and key
table. -/
theorem claim_C1_witness :
    decrypt (fun _ => 3) 291 74565 =
      apply_key_xor (fun _ => 3) (deobfuscate 291 74565) 74565 ^^^ 0x1a3a :=
  claim_C1_decrypt_structure (fun _ => 3) 291 74565 (by decide) (by decide)

/-- C2: for every fixed 24-bit address, `deobfuscate` is a bijection on the
16-bit words: `obfuscate_inverse` (inverse permutation, then inverse rotation)
is a two-sided inverse of it. -/
theorem claim_C2_deobfuscate_bijective (a w : Nat) (ha : a < 16777216)
    (hw : w < 65536) :
    obfuscate_inverse (deobfuscate w a) a = w ∧
      deobfuscate (obfuscate_inverse w a) a = w :=
  ⟨obfuscate_inverse_deobfuscate a w hw, deobfuscate_obfuscate_inverse a w hw⟩

/-- C2 witness: round trips through `deobfuscate` at a concrete word and
address. -/
theorem claim_C2_witness :
    obfuscate_inverse (deobfuscate 4660 300) 300 = 4660 ∧
      deobfuscate (obfuscate_inverse 4660 300) 300 = 4660 :=
  claim_C2_deobfuscate_bijective 300 4660 (by decide) (by decide)

/-- C3: for every 24-bit address the computed rotation amount lies in
[0, 15], even though the signed group and block contributions can be negative
before the final masking to 4 bits. -/
theorem claim_C3_rotation_range (a : Nat) (ha : a < 16777216) : rotation a ≤ 15 :=
  rotation_le a

/-- C3 witness: the rotation amount at a concrete address is at most 15. -/
theorem claim_C3_witness : rotation 123456 ≤ 15 :=
  claim_C3_rotation_range 123456 (by decide)

/-- C4: the fixed bit permutation `perm16` applied by `deobfuscate` after the
rotation sources output bits [15..0] from input bits
[10,9,8,7,0,15,6,5,14,13,4,3,12,11,2,1] for every 16-bit input, and
`deobfuscate` is exactly that permutation after the rotation at every address
(the key table plays no part in `deobfuscate`). -/
theorem claim_C4_fixed_permutation (x : Nat) (hx : x < 65536) :
    ((perm16 x).testBit 15 = x.testBit 10 ∧ (perm16 x).testBit 14 = x.testBit 9 ∧
      (perm16 x).testBit 13 = x.testBit 8 ∧ (perm16 x).testBit 12 = x.testBit 7 ∧
      (perm16 x).testBit 11 = x.testBit 0 ∧ (perm16 x).testBit 10 = x.testBit 15 ∧
      (perm16 x).testBit 9 = x.testBit 6 ∧ (perm16 x).testBit 8 = x.testBit 5 ∧
      (perm16 x).testBit 7 = x.testBit 14 ∧ (perm16 x).testBit 6 = x.testBit 13 ∧
      (perm16 x).testBit 5 = x.testBit 4 ∧ (perm16 x).testBit 4 = x.testBit 3 ∧
      (perm16 x).testBit 3 = x.testBit 12 ∧ (perm16 x).testBit 2 = x.testBit 11 ∧
      (perm16 x).testBit 1 = x.testBit 2 ∧ (perm16 x).testBit 0 = x.testBit 1) ∧
      ∀ c a : Nat, deobfuscate c a = perm16 (rol c (rotation a)) :=
  ⟨⟨perm16_testBit x 15 (by norm_num), perm16_testBit x 14 (by norm_num),
    perm16_testBit x 13 (by norm_num), perm16_testBit x 12 (by norm_num),
    perm16_testBit x 11 (by norm_num), perm16_testBit x 10 (by norm_num),
    perm16_testBit x 9 (by norm_num), perm16_testBit x 8 (by norm_num),
    perm16_testBit x 7 (by norm_num), perm16_testBit x 6 (by norm_num),
    perm16_testBit x 5 (by norm_num), perm16_testBit x 4 (by norm_num),
    perm16_testBit x 3 (by norm_num), perm16_testBit x 2 (by norm_num),
    perm16_testBit x 1 (by norm_num), perm16_testBit x 0 (by norm_num)⟩,
    fun c a => deobfuscate_eq c a⟩

/-- C4 witness: bit 15 of the permuted value is bit 10 of a concrete input. -/
theorem claim_C4_witness : (perm16 4660).testBit 15 = Nat.testBit 4660 10 :=
  (claim_C4_fixed_permutation 4660 (by decide)).1.1

/-- C5: the block contribution `rot2` equals the claimed closed formula
`rot2_spec` in address bits 0, 1, 3, 4, 7, and depends only on those bits. -/
theorem claim_C5_rot2_formula (a b : Nat) (h0 : BIT a 0 = BIT b 0)
    (h1 : BIT a 1 = BIT b 1) (h3 : BIT a 3 = BIT b 3) (h4 : BIT a 4 = BIT b 4)
    (h7 : BIT a 7 = BIT b 7) :
    rot2 a = rot2_spec a ∧ rot2 a = rot2 b :=
  ⟨rot2_eq_spec a, rot2_congr a b h0 h1 h3 h4 h7⟩

/-- C5 witness: the formula at address 0, and agreement with address 4 (which
differs only in bit 2). -/
theorem claim_C5_witness : rot2 0 = rot2_spec 0 ∧ rot2 0 = rot2 4 :=
  claim_C5_rot2_formula 0 4 rfl rfl rfl rfl rfl

/-- C6: with a zero key entry for the address, `decrypt` is `deobfuscate`
xored with 0x1a3a; at address 0 the shift is 0, and with a key table whose
entry 0 is 0, `decrypt 0 0 = 0x1a3a` and `decrypt 0xffff 0 = 0xe5c5`. -/
theorem claim_C6_zero_key_baseline :
    (∀ (key : Nat → Nat) (a w : Nat), key (a &&& 0xff) = 0 →
      decrypt key w a = deobfuscate w a ^^^ 0x1a3a) ∧
    rotation 0 = 0 ∧
    (∀ key : Nat → Nat, key 0 = 0 →
      decrypt key 0 0 = 0x1a3a ∧ decrypt key 0xffff 0 = 0xe5c5) := by
  refine ⟨fun key a w hk => decrypt_zero_key key w a hk, by decide, fun key hk => ?_⟩
  have hk0 : key (0 &&& 0xff) = 0 := hk
  constructor
  · rw [decrypt_zero_key key 0 0 hk0]
    decide
  · rw [decrypt_zero_key key 0xffff 0 hk0]
    decide

/-- C6 witness: the two concrete decryptions with the all-zero key table. -/
theorem claim_C6_witness :
    decrypt (fun _ => 0) 0 0 = 0x1a3a ∧ decrypt (fun _ => 0) 0xffff 0 = 0xe5c5 :=
  claim_C6_zero_key_baseline.2.2 (fun _ => 0) rfl

/-- C7: on a buffer of N 16-bit words (region size 2N bytes), `decrypter_rom`
replaces each word by its decryption at its own index: it equals the
independent per-index map, with no cross-word interaction. -/
theorem claim_C7_region_transform (key : Nat → Nat) (rom : List Nat) :
    decrypter_rom key (2 * rom.length) rom =
      rom.mapIdx (fun i w => decrypt key w i) := by
  rw [decrypter_rom_eq_mapIdx]
  apply List.ext_getElem (by simp)
  intro j hj1 hj2
  have hjlen : j < rom.length := by simpa using hj1
  rw [List.getElem_mapIdx, List.getElem_mapIdx, if_pos (by omega)]

/-- C8: `decrypt` is total and 16-bit valued on its whole domain (as a Lean
function it is deterministic by construction), and the left rotation by 0 is
the identity on 16-bit words. -/
theorem claim_C8_totality :
    (∀ num : Nat, num < 65536 → rol num 0 = num) ∧
    (∀ (key : Nat → Nat) (c a : Nat), c < 65536 → a < 16777216 →
      decrypt key c a < 65536) :=
  ⟨fun num h => rol_zero num h, fun key c a _ _ => decrypt_lt key c a⟩

/-- C8 witness: rotation by 0 fixes a concrete word and a concrete decryption
is 16-bit. -/
theorem claim_C8_witness :
    rol 21845 0 = 21845 ∧ decrypt (fun _ => 7) 21845 300 < 65536 :=
  ⟨claim_C8_totality.1 21845 (by decide),
    claim_C8_totality.2 (fun _ => 7) 21845 300 (by decide) (by decide)⟩

/-- C9: `decrypter_rom` on a region of `size` bytes touches exactly the word
indices below `size / 2`: the length is preserved, every word at an index at
or beyond `size / 2` is unchanged, and an odd trailing byte is ignored — an
odd-size region decrypts exactly as the even-size region one byte shorter. -/
theorem claim_C9_frame (key : Nat → Nat) (size : Nat) (rom : List Nat) :
    (decrypter_rom key size rom).length = rom.length ∧
    (∀ j, size / 2 ≤ j → (decrypter_rom key size rom).getD j 0 = rom.getD j 0) ∧
    (∀ n, decrypter_rom key (2 * n + 1) rom = decrypter_rom key (2 * n) rom) :=
  ⟨decrypter_rom_length key size rom,
    fun j hj => decrypter_rom_frame key size rom j hj,
    fun n => decrypter_rom_odd key n rom⟩

/-- C9 witness: a word beyond the processed range of a concrete region is
unchanged. -/
theorem claim_C9_witness :
    (decrypter_rom (fun _ => 0) 4 [1, 2, 3]).getD 2 0 = ([1, 2, 3] : List Nat).getD 2 0 :=
  (claim_C9_frame (fun _ => 0) 4 [1, 2, 3]).2.1 2 (by decide)

/-- C10: address bits 5 and 6 never influence the rotation amount, and hence
never influence `deobfuscate`: two addresses agreeing everywhere except
possibly on bits 5 and 6 yield the same shift and the same deobfuscation of
every cipher word. -/
theorem claim_C10_bits_5_6_irrelevant (a b : Nat)
    (h : ∀ i, i ≠ 5 → i ≠ 6 → a.testBit i = b.testBit i) :
    rotation a = rotation b ∧ ∀ c, deobfuscate c a = deobfuscate c b :=
  ⟨rotation_congr a b h, fun c => deobfuscate_congr a b h c⟩

/-- C10 witness: addresses 0 and 32 (differing exactly in bit 5) give the
same rotation and the same deobfuscation of a concrete word. -/
theorem claim_C10_witness :
    rotation 0 = rotation 32 ∧ deobfuscate 7 0 = deobfuscate 7 32 := by
  have h32 : ∀ i, i ≠ 5 → i ≠ 6 → Nat.testBit 0 i = Nat.testBit 32 i := by
    intro i h5 _
    rw [Nat.zero_testBit, show (32 : Nat) = 2 ^ 5 by norm_num, Nat.testBit_two_pow]
    simp
    omega
  exact ⟨(claim_C10_bits_5_6_irrelevant 0 32 h32).1,
    (claim_C10_bits_5_6_irrelevant 0 32 h32).2 7⟩

end IGS036
